import Mathlib

/-!
Verification of the pytm-mcpserver core against its specification.

The Python sources embedded here are `core_utils.py` (keyword classifier
`extract_components`, diagram text `generate_simple_dot`) and
`threatmodel_server.py` (rich data model, `generate_advanced_dot`,
`generate_advanced_pytm_code`, the classification summary line, and the
module-level caches).  Strings are modelled as Lean `String` / `List Char`;
every regex in the source is an alternation of literal substrings, so
`re.search` is modelled as "some alternative occurs as a contiguous
substring of the lower-cased text".  Python's `\w` character class is
modelled by ASCII alphanumerics plus underscore (the generated names in the
source are ASCII).  Python `set` iteration order is unspecified, so the
boundary collection is modelled as an insertion-ordered duplicate-free
list and statements about it are membership/set-level statements.
-/

namespace PytmMcp

/-- Substring occurrence test on character lists: true iff `needle` occurs
contiguously inside `hay`.  This models Python `re.search(lit, hay)` for a
literal pattern `lit`. -/
def containsSub (needle : List Char) : List Char → Bool
  | [] => needle.isEmpty
  | c :: t => needle.isPrefixOf (c :: t) || containsSub needle t

/-- A component record of the simple classifier path
(`core_utils.extract_components`): the Python dict with keys
`name`, `type`, `boundary`. -/
structure SimpleComponent where
  name : String
  type : String
  boundary : String
  deriving DecidableEq, Repr

/-- One entry of `core_utils.PATTERNS`: the regex key is an alternation of
literal substrings (`alts`), the value is the canonical component
name/type/boundary triple. -/
structure Rule where
  alts : List String
  name : String
  type : String
  boundary : String
  deriving DecidableEq, Repr

/-- `core_utils.PATTERNS` (lines 10-25), in dict insertion order, with each
regex key split at `|` into its literal alternatives. -/
def PATTERNS : List Rule := [
  ⟨["web", "frontend", "ui", "portal", "dashboard"], "Web Frontend", "server", "Internet"⟩,
  ⟨["api", "backend", "rest", "graphql", "service"], "API Server", "server", "DMZ"⟩,
  ⟨["database", "postgres", "mysql", "sql", "db"], "Database", "datastore", "Internal"⟩,
  ⟨["redis", "cache", "memcache"], "Cache", "datastore", "Internal"⟩,
  ⟨["storage", "s3", "blob", "file"], "File Storage", "datastore", "Internal"⟩,
  ⟨["user", "customer", "client"], "User", "actor", "Internet"⟩,
  ⟨["admin", "administrator"], "Admin", "actor", "Internet"⟩,
  ⟨["payment", "stripe", "paypal"], "Payment Gateway", "external", "Internet"⟩,
  ⟨["email", "smtp", "mail"], "Email Service", "external", "Internet"⟩,
  ⟨["auth", "oauth", "sso", "identity"], "Auth Provider", "external", "Internet"⟩,
  ⟨["mobile", "ios", "android", "app"], "Mobile App", "actor", "Internet"⟩,
  ⟨["microservice"], "Microservice", "process", "Internal"⟩,
  ⟨["queue", "kafka", "rabbitmq"], "Message Queue", "datastore", "Internal"⟩,
  ⟨["cdn", "cloudfront"], "CDN", "external", "Internet"⟩]

/-- `re.search(pattern, descLower)` for one `PATTERNS` rule: some literal
alternative of the rule occurs as a substring of the lower-cased text. -/
def ruleMatches (r : Rule) (descLower : List Char) : Bool :=
  r.alts.any (fun a => containsSub a.data descLower)

/-- Adding one name to the boundary collection (`boundaries.add(...)` on a
Python set, modelled as an insertion-ordered duplicate-free list). -/
def insertBoundary (bs : List String) (b : String) : List String :=
  if bs.contains b then bs else bs ++ [b]

/-- The mutable state of the loop body of `extract_components`:
the `components` list, the `boundaries` set, and the `found` name set
(`found` is modelled, like `boundaries`, as an insertion-ordered list). -/
structure PassState where
  comps : List SimpleComponent
  bounds : List String
  found : List String
  deriving DecidableEq, Repr

/-- One iteration of the `for pattern, (name, comp_type, boundary) in
PATTERNS.items()` loop of `extract_components` (core_utils.py lines 62-70):
if the pattern matches and the name was not yet emitted, append the
component, register its boundary and record the name. -/
def tableStep (descLower : List Char) (st : PassState) (r : Rule) : PassState :=
  if ruleMatches r descLower && !(st.found.contains r.name) then
    { comps := st.comps ++ [⟨r.name, r.type, r.boundary⟩],
      bounds := insertBoundary st.bounds r.boundary,
      found := st.found ++ [r.name] }
  else st

/-- The whole pattern-table pass of `extract_components`: lower-case the
description, then fold the loop body over `PATTERNS`, starting from no
components, the boundary set `{'Internet'}` and an empty `found` set. -/
def tablePass (description : List Char) : PassState :=
  PATTERNS.foldl (tableStep (description.map Char.toLower)) ⟨[], ["Internet"], []⟩

/-- `core_utils.extract_components` (lines 55-79): the table pass followed
by the two completion defaults — a `User` actor in `Internet` when no
actor-typed component was emitted, and an `Application` server in a fresh
`DMZ` boundary when no server-typed component is present. -/
def extract_components (description : List Char) : List SimpleComponent × List String :=
  let st := tablePass description
  let comps1 := if st.comps.any (fun c => c.type == "actor") then st.comps
                else st.comps ++ [⟨"User", "actor", "Internet"⟩]
  if comps1.any (fun c => c.type == "server") then (comps1, st.bounds)
  else (comps1 ++ [⟨"Application", "server", "DMZ"⟩], insertBoundary st.bounds "DMZ")

/-- The concrete description used by the end-to-end classifier claim. -/
def webAppDesc : List Char := "web application with database and redis cache".data

/-- C1 (counterexample): on `"web application with database and redis
cache"` the classifier does NOT return the claimed component set
`Web Frontend, Database, Cache, User`: the `mobile|ios|android|app` rule
matches `app` inside the word `application`, so the emitted actor is
`Mobile App` and the default actor `User` is never synthesized. -/
theorem C1_counterexample :
    ((extract_components webAppDesc).1.map (fun c => c.name)) ≠
      ["Web Frontend", "Database", "Cache", "User"] ∧
    ((extract_components webAppDesc).1.map (fun c => c.name)) =
      ["Web Frontend", "Database", "Cache", "Mobile App"] := by
  constructor
  · decide
  · decide

/-- C1 (amended): `classify("web application with database and redis
cache")` returns exactly Web Frontend (server, Internet), Database
(datastore, Internal), Cache (datastore, Internal), and Mobile App (actor,
Internet) — the latter because the pattern alternative `app` matches inside
the larger word `application`; since an actor and a server are present, no
default actor or server is added; and the boundary set equals
`{Internet, Internal}`. -/
theorem C1_classify_web_app :
    (extract_components webAppDesc).1 =
      [⟨"Web Frontend", "server", "Internet"⟩,
       ⟨"Database", "datastore", "Internal"⟩,
       ⟨"Cache", "datastore", "Internal"⟩,
       ⟨"Mobile App", "actor", "Internet"⟩] ∧
    (extract_components webAppDesc).2 = ["Internet", "Internal"] := by
  constructor
  · decide
  · decide

/-! Generic facts about the pattern-table fold.  They are stated over an
arbitrary rule list and start state and proved by induction, then
instantiated at `PATTERNS`. -/

theorem insertBoundary_mem {bs : List String} {x : String} (b : String) (h : x ∈ bs) :
    x ∈ insertBoundary bs b := by
  unfold insertBoundary
  split
  · exact h
  · exact List.mem_append_left _ h

theorem insertBoundary_self (bs : List String) (b : String) : b ∈ insertBoundary bs b := by
  unfold insertBoundary
  split
  · next h => simpa using h
  · exact List.mem_append_right _ (List.mem_singleton.mpr rfl)

theorem tableStep_comps (d : List Char) (st : PassState) (r : Rule) :
    ∃ l, (tableStep d st r).comps = st.comps ++ l := by
  unfold tableStep
  split
  · exact ⟨_, rfl⟩
  · exact ⟨[], (List.append_nil _).symm⟩

theorem foldl_comps_extend (d : List Char) :
    ∀ (rules : List Rule) (st : PassState),
      ∃ l, (rules.foldl (tableStep d) st).comps = st.comps ++ l := by
  intro rules
  induction rules with
  | nil => exact fun st => ⟨[], (List.append_nil _).symm⟩
  | cons r rs ih =>
    intro st
    obtain ⟨l₁, h₁⟩ := tableStep_comps d st r
    obtain ⟨l₂, h₂⟩ := ih (tableStep d st r)
    exact ⟨l₁ ++ l₂, by simp [List.foldl_cons, h₂, h₁]⟩

theorem foldl_comps_mem (d : List Char) (rules : List Rule) (st : PassState)
    {c : SimpleComponent} (h : c ∈ st.comps) : c ∈ (rules.foldl (tableStep d) st).comps := by
  obtain ⟨l, hl⟩ := foldl_comps_extend d rules st
  rw [hl]
  exact List.mem_append_left _ h

theorem foldl_comps_provenance (d : List Char) :
    ∀ (rules : List Rule) (st : PassState) (c : SimpleComponent),
      c ∈ (rules.foldl (tableStep d) st).comps →
      c ∈ st.comps ∨ ∃ r ∈ rules,
        c = ⟨r.name, r.type, r.boundary⟩ ∧ ruleMatches r d = true := by
  intro rules
  induction rules with
  | nil => exact fun st c h => Or.inl h
  | cons r rs ih =>
    intro st c h
    rcases ih (tableStep d st r) c h with h1 | ⟨r', hr', hc, hm⟩
    · unfold tableStep at h1
      split at h1
      · next hcond =>
        rcases List.mem_append.mp h1 with h2 | h2
        · exact Or.inl h2
        · refine Or.inr ⟨r, List.mem_cons_self .., ?_, ?_⟩
          · simpa using h2
          · exact (Bool.and_eq_true ..).mp hcond |>.1
      · exact Or.inl h1
    · exact Or.inr ⟨r', List.mem_cons_of_mem _ hr', hc, hm⟩

theorem foldl_emits (d : List Char) (r : Rule) (hm : ruleMatches r d = true) :
    ∀ (rules : List Rule) (st : PassState), r ∈ rules →
      r.name ∉ st.found →
      (∀ r' ∈ rules, r'.name = r.name → r' = r) →
      (⟨r.name, r.type, r.boundary⟩ : SimpleComponent) ∈ (rules.foldl (tableStep d) st).comps := by
  intro rules
  induction rules with
  | nil => intro st hmem; exact absurd hmem (List.not_mem_nil _)
  | cons r0 rs ih =>
    intro st hmem hfound hname
    by_cases hr0 : r0 = r
    · subst hr0
      have hcond : (ruleMatches r0 d && !(st.found.contains r0.name)) = true := by
        simp [hm, List.contains, hfound]
      have : (⟨r0.name, r0.type, r0.boundary⟩ : SimpleComponent) ∈ (tableStep d st r0).comps := by
        unfold tableStep
        rw [if_pos hcond]
        exact List.mem_append_right _ (List.mem_singleton.mpr rfl)
      exact foldl_comps_mem d rs _ this
    · have hmem' : r ∈ rs := by
        rcases List.mem_cons.mp hmem with h | h
        · exact absurd h.symm hr0
        · exact h
      have hne : r0.name ≠ r.name := fun h => hr0 (hname r0 (List.mem_cons_self ..) h)
      have hfound' : r.name ∉ (tableStep d st r0).found := by
        unfold tableStep
        split
        · intro h
          rcases List.mem_append.mp h with h2 | h2
          · exact hfound h2
          · exact hne (List.mem_singleton.mp h2).symm
        · exact hfound
      exact ih (tableStep d st r0) hmem' hfound'
        (fun r' h => hname r' (List.mem_cons_of_mem _ h))

theorem foldl_bounds_mem (d : List Char) :
    ∀ (rules : List Rule) (st : PassState) {b : String}, b ∈ st.bounds →
      b ∈ (rules.foldl (tableStep d) st).bounds := by
  intro rules
  induction rules with
  | nil => exact fun st _ h => h
  | cons r rs ih =>
    intro st b h
    refine ih (tableStep d st r) ?_
    unfold tableStep
    split
    · exact insertBoundary_mem _ h
    · exact h

theorem foldl_bounds_invariant (d : List Char) :
    ∀ (rules : List Rule) (st : PassState),
      (∀ c ∈ st.comps, c.boundary ∈ st.bounds) →
      ∀ c ∈ (rules.foldl (tableStep d) st).comps,
        c.boundary ∈ (rules.foldl (tableStep d) st).bounds := by
  intro rules
  induction rules with
  | nil => exact fun st h => h
  | cons r rs ih =>
    intro st h
    refine ih (tableStep d st r) ?_
    intro c hc
    unfold tableStep at hc ⊢
    by_cases hcond : (ruleMatches r d && !(st.found.contains r.name)) = true
    · rw [if_pos hcond] at hc ⊢
      rcases List.mem_append.mp hc with h2 | h2
      · exact insertBoundary_mem _ (h c h2)
      · have : c = ⟨r.name, r.type, r.boundary⟩ := by simpa using h2
        subst this
        exact insertBoundary_self st.bounds r.boundary
    · rw [if_neg hcond] at hc ⊢
      exact h c hc

theorem foldl_names_invariant (d : List Char) :
    ∀ (rules : List Rule) (st : PassState),
      ((st.comps.map (fun c => c.name)).Nodup ∧ ∀ c ∈ st.comps, c.name ∈ st.found) →
      ((rules.foldl (tableStep d) st).comps.map (fun c => c.name)).Nodup ∧
        ∀ c ∈ (rules.foldl (tableStep d) st).comps,
          c.name ∈ (rules.foldl (tableStep d) st).found := by
  intro rules
  induction rules with
  | nil => exact fun st h => h
  | cons r rs ih =>
    intro st h
    refine ih (tableStep d st r) ?_
    unfold tableStep
    split
    · next hcond =>
      have hnotin : r.name ∉ st.found := by
        have := ((Bool.and_eq_true ..).mp hcond).2
        simp only [Bool.not_eq_true', List.contains] at this
        intro hmem
        rw [List.elem_eq_true_of_mem hmem] at this
        exact Bool.false_ne_true this.symm
      constructor
      · simp only [List.map_append, List.map_cons, List.map_nil]
        rw [List.nodup_append]
        refine ⟨h.1, List.nodup_singleton _, ?_⟩
        intro x hx hy
        have hxr : x = r.name := by simpa using hy
        subst hxr
        obtain ⟨c, hc, hcn⟩ := List.mem_map.mp hx
        exact hnotin (hcn ▸ h.2 c hc)
      · intro c hc
        rcases List.mem_append.mp hc with h2 | h2
        · exact List.mem_append_left _ (h.2 c h2)
        · have : c = ⟨r.name, r.type, r.boundary⟩ := by simpa using h2
          subst this
          exact List.mem_append_right _ (List.mem_singleton.mpr rfl)
    · exact h

/-! Facts connecting the substring test with `List.IsInfix`, used to show
that a `microservice` match forces a `service` match. -/

theorem containsSub_iff (a : List Char) :
    ∀ h : List Char, containsSub a h = true ↔ a <:+: h := by
  intro h
  induction h with
  | nil => simp [containsSub]
  | cons c t ih =>
    simp [containsSub, ih, List.infix_cons_iff]

theorem micro_forces_service {d : List Char}
    (h : containsSub "microservice".data d = true) :
    containsSub "service".data d = true := by
  rw [containsSub_iff] at h ⊢
  have hsub : ("service".data : List Char) <:+: "microservice".data := by
    rw [← containsSub_iff]
    decide
  exact hsub.trans h

/-- If the table pass emitted a `process`-typed component then it also
emitted a `server`-typed one: the only `process` rule is `microservice`,
whose match forces a match of the earlier `api|backend|rest|graphql|service`
rule via the substring `service`, and that rule emits `API Server`. -/
theorem tablePass_process_implies_server (d : List Char)
    (h : (tablePass d).comps.any (fun c => c.type == "process") = true) :
    (tablePass d).comps.any (fun c => c.type == "server") = true := by
  rw [List.any_eq_true] at h ⊢
  obtain ⟨c, hc, hp⟩ := h
  rcases foldl_comps_provenance _ PATTERNS _ c hc with h0 | ⟨r, hr, hceq, hm⟩
  · simp at h0
  · have htype : r.type = "process" := by
      subst hceq
      simpa using hp
    have hrmicro : r = ⟨["microservice"], "Microservice", "process", "Internal"⟩ := by
      have : ∀ r' ∈ PATTERNS, r'.type = "process" →
          r' = ⟨["microservice"], "Microservice", "process", "Internal"⟩ := by decide
      exact this r hr htype
    have hmatch : containsSub "microservice".data (d.map Char.toLower) = true := by
      rw [hrmicro] at hm
      simpa [ruleMatches] using hm
    have hservice : ruleMatches
        ⟨["api", "backend", "rest", "graphql", "service"], "API Server", "server", "DMZ"⟩
        (d.map Char.toLower) = true := by
      simp only [ruleMatches, List.any_eq_true]
      exact ⟨"service", by decide, micro_forces_service hmatch⟩
    have hemit := foldl_emits (d.map Char.toLower) _ hservice PATTERNS
      ⟨[], ["Internet"], []⟩ (by decide) (by simp) (by decide)
    exact ⟨_, hemit, rfl⟩

/-- On the table-pass output, "contains a server-or-process component" and
"contains a server component" coincide. -/
theorem tablePass_server_or_process (d : List Char) :
    (tablePass d).comps.any (fun c => c.type == "server" || c.type == "process") =
      (tablePass d).comps.any (fun c => c.type == "server") := by
  rw [Bool.eq_iff_iff]
  simp only [List.any_eq_true, Bool.or_eq_true]
  constructor
  · rintro ⟨c, hc, hs | hp⟩
    · exact ⟨c, hc, hs⟩
    · have := tablePass_process_implies_server d (List.any_eq_true.mpr ⟨c, hc, hp⟩)
      exact List.any_eq_true.mp this
  · rintro ⟨c, hc, hs⟩
    exact ⟨c, hc, Or.inl hs⟩

/-- Closed form of `extract_components` in terms of the table pass and the
two source-level default conditions (the second one testing only
`type == 'server'`, exactly as the code does). -/
theorem extract_components_eq (d : List Char) :
    extract_components d =
      ((tablePass d).comps
        ++ (if (tablePass d).comps.any (fun c => c.type == "actor") then []
            else [⟨"User", "actor", "Internet"⟩])
        ++ (if (tablePass d).comps.any (fun c => c.type == "server") then []
            else [⟨"Application", "server", "DMZ"⟩]),
       if (tablePass d).comps.any (fun c => c.type == "server") then (tablePass d).bounds
       else insertBoundary (tablePass d).bounds "DMZ") := by
  unfold extract_components
  cases ha : (tablePass d).comps.any (fun c => c.type == "actor") <;>
    cases hs : (tablePass d).comps.any (fun c => c.type == "server") <;>
      simp [ha, hs]

/-- C4: for every description, the classifier output is exactly the
table-pass output followed by the conditional defaults: a `User` actor in
`Internet` exactly when the table pass emitted no actor-category component,
and an `Application` server in a `DMZ` boundary (with `DMZ` registered in
the boundary set) exactly when it emitted no server/process-category
component.  The source tests only `type == 'server'` for the second
default, but a `process` component (`Microservice`) can only be emitted
together with the `server` component `API Server`, so the two conditions
agree on every reachable output. -/
theorem C4_default_synthesis (d : List Char) :
    (extract_components d).1 =
      (tablePass d).comps
        ++ (if (tablePass d).comps.any (fun c => c.type == "actor") then []
            else [⟨"User", "actor", "Internet"⟩])
        ++ (if (tablePass d).comps.any (fun c => c.type == "server" || c.type == "process")
            then [] else [⟨"Application", "server", "DMZ"⟩]) ∧
    (extract_components d).2 =
      (if (tablePass d).comps.any (fun c => c.type == "server" || c.type == "process")
       then (tablePass d).bounds else insertBoundary (tablePass d).bounds "DMZ") := by
  rw [tablePass_server_or_process, extract_components_eq d]
  exact ⟨rfl, rfl⟩

/-- C5: the classifier is total with a non-trivial result: every
description (the empty one included) yields at least one actor-category
component, at least one server/process-category component, and a boundary
set containing `Internet`. -/
theorem C5_classify_total (d : List Char) :
    (extract_components d).1.any (fun c => c.type == "actor") = true ∧
    (extract_components d).1.any (fun c => c.type == "server" || c.type == "process") = true ∧
    "Internet" ∈ (extract_components d).2 := by
  have hInternet : "Internet" ∈ (tablePass d).bounds :=
    foldl_bounds_mem _ PATTERNS _ (by simp)
  rw [extract_components_eq d]
  refine ⟨?_, ?_, ?_⟩
  · cases ha : (tablePass d).comps.any (fun c => c.type == "actor") <;>
      simp [List.any_append, ha]
  · cases hs : (tablePass d).comps.any (fun c => c.type == "server")
    · simp [List.any_append, hs]
    · obtain ⟨c, hc, hcs⟩ := List.any_eq_true.mp hs
      have : (tablePass d).comps.any (fun c => c.type == "server" || c.type == "process") = true :=
        List.any_eq_true.mpr ⟨c, hc, by simp [hcs]⟩
      simp [List.any_append, this]
  · cases hs : (tablePass d).comps.any (fun c => c.type == "server")
    · simpa using insertBoundary_mem _ hInternet
    · simpa using hInternet

theorem tablePass_no_user (d : List Char)
    (ha : (tablePass d).comps.any (fun c => c.type == "actor") = false) :
    "User" ∉ (tablePass d).comps.map (fun c => c.name) := by
  intro hmem
  obtain ⟨c, hc, hcn⟩ := List.mem_map.mp hmem
  rcases foldl_comps_provenance _ PATTERNS _ c hc with h0 | ⟨r, hr, hceq, -⟩
  · simp at h0
  · have hrn : r.name = "User" := by rw [hceq] at hcn; exact hcn
    have hrt : r.type = "actor" := by
      have : ∀ r' ∈ PATTERNS, r'.name = "User" → r'.type = "actor" := by decide
      exact this r hr hrn
    have : (tablePass d).comps.any (fun c => c.type == "actor") = true :=
      List.any_eq_true.mpr ⟨c, hc, by rw [hceq]; simp [hrt]⟩
    rw [ha] at this
    exact Bool.false_ne_true this

theorem tablePass_no_application (d : List Char) :
    "Application" ∉ (tablePass d).comps.map (fun c => c.name) := by
  intro hmem
  obtain ⟨c, hc, hcn⟩ := List.mem_map.mp hmem
  rcases foldl_comps_provenance _ PATTERNS _ c hc with h0 | ⟨r, hr, hceq, -⟩
  · simp at h0
  · have hrn : r.name = "Application" := by rw [hceq] at hcn; exact hcn
    have : ∀ r' ∈ PATTERNS, r'.name ≠ "Application" := by decide
    exact this r hr hrn

/-- C10: interface invariants of the classifier, for every description:
each returned component's `boundary` value is a member of the returned
boundary set, and no two returned components share a name. -/
theorem C10_classifier_interface (d : List Char) :
    ((extract_components d).1.all
      (fun c => (extract_components d).2.contains c.boundary)) = true ∧
    ((extract_components d).1.map (fun c => c.name)).Nodup := by
  have hInternet : "Internet" ∈ (tablePass d).bounds :=
    foldl_bounds_mem _ PATTERNS _ (by simp)
  have hinv := foldl_bounds_invariant (d.map Char.toLower) PATTERNS
    ⟨[], ["Internet"], []⟩ (by intro c hc; simp at hc)
  have hnames := foldl_names_invariant (d.map Char.toLower) PATTERNS
    ⟨[], ["Internet"], []⟩ (by constructor <;> simp)
  rw [extract_components_eq d]
  constructor
  · simp only [List.all_eq_true, List.contains, List.elem_eq_mem, decide_eq_true_eq]
    intro c hc
    have hbound : c ∈ (tablePass d).comps → c.boundary ∈
        (if (tablePass d).comps.any (fun c => c.type == "server") then (tablePass d).bounds
         else insertBoundary (tablePass d).bounds "DMZ") := by
      intro h
      cases hs : (tablePass d).comps.any (fun c => c.type == "server") <;>
        simp only [if_pos, if_neg, Bool.false_eq_true, ite_false, ite_true]
      · exact insertBoundary_mem _ (hinv c h)
      · exact hinv c h
    rcases List.mem_append.mp hc with hc1 | hc2
    · rcases List.mem_append.mp hc1 with hc0 | hu
      · exact hbound hc0
      · have : c = ⟨"User", "actor", "Internet"⟩ := by
          cases ha : (tablePass d).comps.any (fun c => c.type == "actor") <;>
            rw [ha] at hu <;> first
            | exact List.mem_singleton.mp hu
            | simp at hu
        subst this
        cases hs : (tablePass d).comps.any (fun c => c.type == "server") <;>
          simp only [Bool.false_eq_true, ite_false, ite_true]
        · exact insertBoundary_mem _ hInternet
        · exact hInternet
    · have : c = ⟨"Application", "server", "DMZ"⟩ := by
        cases hs : (tablePass d).comps.any (fun c => c.type == "server") <;>
          rw [hs] at hc2 <;> first
          | exact List.mem_singleton.mp hc2
          | simp at hc2
      have hs : (tablePass d).comps.any (fun c => c.type == "server") = false := by
        cases hs : (tablePass d).comps.any (fun c => c.type == "server")
        · rfl
        · rw [hs] at hc2; simp at hc2
      subst this
      rw [hs]
      simpa using insertBoundary_self (tablePass d).bounds "DMZ"
  · cases ha : (tablePass d).comps.any (fun c => c.type == "actor") <;>
      cases hs : (tablePass d).comps.any (fun c => c.type == "server") <;>
        simp only [Bool.false_eq_true, ite_false, ite_true, List.append_nil,
          List.map_append, List.map_cons, List.map_nil]
    · rw [List.nodup_append, List.nodup_append]
      refine ⟨⟨hnames.1, List.nodup_singleton _, ?_⟩, List.nodup_singleton _, ?_⟩
      · intro x hx hy
        have : x = "User" := by simpa using hy
        subst this
        exact tablePass_no_user d ha hx
      · intro x hx hy
        have hxa : x = "Application" := by simpa using hy
        subst hxa
        rcases List.mem_append.mp hx with h1 | h2
        · exact tablePass_no_application d h1
        · simp at h2
    · rw [List.nodup_append]
      refine ⟨hnames.1, List.nodup_singleton _, ?_⟩
      intro x hx hy
      have : x = "User" := by simpa using hy
      subst this
      exact tablePass_no_user d ha hx
    · rw [List.nodup_append]
      refine ⟨hnames.1, List.nodup_singleton _, ?_⟩
      intro x hx hy
      have : x = "Application" := by simpa using hy
      subst this
      exact tablePass_no_application d hx
    · exact hnames.1

/-! The rich data model of `threatmodel_server.py` and the computations of
the advanced tool path. -/

/-- `DataClassification` (threatmodel_server.py lines 64-69), a `str` enum
whose `.value` strings are given by `DataClassification.value`. -/
inductive DataClassification where
  | PUBLIC
  | INTERNAL
  | CONFIDENTIAL
  | RESTRICTED
  | TOP_SECRET
  deriving DecidableEq, Repr

/-- The `.value` string of each `DataClassification` member. -/
def DataClassification.value : DataClassification → String
  | .PUBLIC => "PUBLIC"
  | .INTERNAL => "INTERNAL"
  | .CONFIDENTIAL => "CONFIDENTIAL"
  | .RESTRICTED => "RESTRICTED"
  | .TOP_SECRET => "TOP_SECRET"

/-- Modelled from the spec: the position of a classification in the
documented total order PUBLIC < INTERNAL < CONFIDENTIAL < RESTRICTED <
TOP_SECRET (spec sections 3 and 8; the enum's declaration order). -/
def DataClassification.rank : DataClassification → Nat
  | .PUBLIC => 0
  | .INTERNAL => 1
  | .CONFIDENTIAL => 2
  | .RESTRICTED => 3
  | .TOP_SECRET => 4

/-- The `DataFlow` dataclass (threatmodel_server.py lines 86-97).  The
protocol enum is kept as its value string; optional fields are `Option`. -/
structure AdvDataFlow where
  source : String
  destination : String
  protocol : String
  data_type : String
  classification : DataClassification
  bidirectional : Bool := false
  port : Option Nat := none
  authentication : Option String := none
  encryption : Option String := none
  description : Option String := none
  deriving DecidableEq, Repr

/-- Python `str` comparison on character lists: lexicographic by code
point. -/
def pyCharListLt : List Char → List Char → Bool
  | [], [] => false
  | [], _ :: _ => true
  | _ :: _, [] => false
  | a :: as, b :: bs =>
    if a.toNat < b.toNat then true
    else if b.toNat < a.toNat then false
    else pyCharListLt as bs

/-- Python `<` on `str` values. -/
def pyStrLt (a b : String) : Bool := pyCharListLt a.data b.data

/-- Python's binary `max` on `str`: keep the current value unless the new
one is strictly greater. -/
def pyStrMax (a b : String) : String := if pyStrLt a b then b else a

/-- The summary value
`max(f.classification.value for f in dataflows) if dataflows else 'N/A'`
(threatmodel_server.py line 746): Python's `max` folds its binary maximum
— which on `str` is lexicographic by code point — over the flows'
classification value strings. -/
def highestClassification (dataflows : List AdvDataFlow) : String :=
  match dataflows.map (fun f => f.classification.value) with
  | [] => "N/A"
  | v :: vs => vs.foldl pyStrMax v

/-- Modelled from the spec: the intended highest classification — the
maximum of the flows' classifications under the documented total order
(by `rank`), as the claim states it. -/
def specHighestClassification (dataflows : List AdvDataFlow) : String :=
  match dataflows with
  | [] => "N/A"
  | f :: fs =>
    ((fs.map (fun g => g.classification)).foldl
      (fun m x => if m.rank < x.rank then x else m) f.classification).value

/-- A dataflow record used as concrete input for the classification
claims; only the classification field varies. -/
def flowOf (c : DataClassification) : AdvDataFlow :=
  { source := "A", destination := "B", protocol := "HTTPS", data_type := "payload",
    classification := c }

/-- C2: the code computes the "highest classification" as Python `max`
over the enum VALUE STRINGS, i.e. lexicographically, not under the
documented order PUBLIC < INTERNAL < CONFIDENTIAL < RESTRICTED <
TOP_SECRET.  On flows classified [PUBLIC, CONFIDENTIAL] the code reports
"PUBLIC" (since "P" > "C" lexicographically) while the order's maximum is
CONFIDENTIAL, so the claim's universal statement fails; the claim's own
example [PUBLIC, RESTRICTED, INTERNAL] happens to agree with the order
(both give RESTRICTED), which hides the bug. -/
theorem C2_string_max_bug :
    highestClassification [flowOf .PUBLIC, flowOf .CONFIDENTIAL] = "PUBLIC" ∧
    specHighestClassification [flowOf .PUBLIC, flowOf .CONFIDENTIAL] = "CONFIDENTIAL" ∧
    ("PUBLIC" : String) ≠ "CONFIDENTIAL" ∧
    highestClassification [flowOf .PUBLIC, flowOf .RESTRICTED, flowOf .INTERNAL] =
      "RESTRICTED" ∧
    specHighestClassification [flowOf .PUBLIC, flowOf .RESTRICTED, flowOf .INTERNAL] =
      "RESTRICTED" := by
  refine ⟨by decide, by decide, by decide, by decide, by decide⟩

/-! Diagram synthesis.  The DOT output is modelled structurally: the node
identifier list and the edge list, in emission order, exactly as the
source's loops produce them.  Node attributes (shape, color) and the graph
preamble are plain text around these and are not needed by any claim,
which quantify over identifiers, labels and line styles. -/

/-- One character of `re.sub(r'\x5b^\w\x5d', '_', name.lower())`: a
non-word character is replaced by an underscore.  `\w` is modelled as
ASCII alphanumeric or underscore (all names generated by the source are
ASCII). -/
def slugChar (c : Char) : Char := if c.isAlphanum || c == '_' then c else '_'

/-- The node/variable identifier derived from a display name:
`re.sub(r'\x5b^\w\x5d', '_', name.lower())`. -/
def slug (s : String) : String := ⟨s.data.map (fun c => slugChar c.toLower)⟩

/-- A directed edge of the generated graph text: endpoints (already
slugged), label, and line style (empty = solid). -/
structure DotEdge where
  src : String
  dst : String
  label : String
  style : String
  deriving DecidableEq, Repr

/-- Boundary ordering of `generate_simple_dot` (core_utils.py lines
98-99): the fixed priority list first, then the remaining boundaries in
input order. -/
def orderedBoundaries (boundaries : List String) : List String :=
  (["Internet", "DMZ", "Internal"].filter (fun b => boundaries.contains b)) ++
    boundaries.filter (fun b => !(["Internet", "DMZ", "Internal"].contains b))

/-- Node identifiers declared by `generate_simple_dot` (core_utils.py
lines 102-160), in emission order: for each ordered boundary, the slug of
every component placed in that boundary. -/
def simpleDotNodes (components : List SimpleComponent) (boundaries : List String) :
    List String :=
  (orderedBoundaries boundaries).flatMap (fun b =>
    (components.filter (fun c => c.boundary == b)).map (fun c => slug c.name))

/-- The category lists built at core_utils.py lines 166-169:
`actors = \x5bc for c in components if c\x5b'type'\x5d == 'actor'\x5d`. -/
def actorsOf (components : List SimpleComponent) : List SimpleComponent :=
  components.filter (fun c => c.type == "actor")

/-- `servers`: components typed `server` or `process` (line 167). -/
def serversOf (components : List SimpleComponent) : List SimpleComponent :=
  components.filter (fun c => c.type == "server" || c.type == "process")

/-- `stores`: components typed `datastore` (line 168). -/
def storesOf (components : List SimpleComponent) : List SimpleComponent :=
  components.filter (fun c => c.type == "datastore")

/-- `externals`: components typed `external` (line 169). -/
def externalsOf (components : List SimpleComponent) : List SimpleComponent :=
  components.filter (fun c => c.type == "external")

/-- Body of the nested actor/server loop of `generate_simple_dot`
(core_utils.py lines 175-183): given the indexed actor `ia` and indexed
server `js` it emits the `HTTPS` edge when `i == 0 or j == 0` and, inside
that branch, the single dashed `Response` edge when `i == 0 and j == 0`;
otherwise nothing. -/
def awEdge (ia js : Nat × SimpleComponent) : List DotEdge :=
  if ia.1 == 0 || js.1 == 0 then
    ⟨slug ia.2.name, slug js.2.name, "HTTPS", ""⟩ ::
      (if ia.1 == 0 && js.1 == 0 then
        [⟨slug js.2.name, slug ia.2.name, "Response", "dashed"⟩]
      else [])
  else []

/-- Edges emitted by `generate_simple_dot` (core_utils.py lines 166-197):
the doubly-indexed actor/server loop (`awEdge`), then a `Query` edge from
the first server (`servers\x5b:1\x5d`) to every datastore, and an `API`
edge from the first server to every external component. -/
def simpleDotEdges (components : List SimpleComponent) : List DotEdge :=
  (actorsOf components).enum.flatMap (fun ia =>
    (serversOf components).enum.flatMap (fun js => awEdge ia js))
  ++ ((serversOf components).take 1).flatMap (fun s =>
      (storesOf components).map (fun st => ⟨slug s.name, slug st.name, "Query", ""⟩))
  ++ ((serversOf components).take 1).flatMap (fun s =>
      (externalsOf components).map (fun e => ⟨slug s.name, slug e.name, "API", ""⟩))

/-- `ComponentType` (threatmodel_server.py lines 33-50). -/
inductive ComponentType where
  | ACTOR
  | USER
  | ADMIN
  | SERVICE_ACCOUNT
  | SERVER
  | API_GATEWAY
  | MICROSERVICE
  | LAMBDA
  | CONTAINER
  | DATABASE
  | CACHE
  | MESSAGE_QUEUE
  | FILE_STORAGE
  | EXTERNAL_SERVICE
  | LOAD_BALANCER
  | FIREWALL
  | PROCESS
  deriving DecidableEq, Repr

/-- The `Component` dataclass (threatmodel_server.py lines 77-84); the
optional description, security-control list and metadata map do not enter
any diagram identifier or flow declaration and are omitted here. -/
structure AdvComponent where
  name : String
  type : ComponentType
  boundary : String
  deriving DecidableEq, Repr

/-- The `TrustBoundary` dataclass (threatmodel_server.py lines 99-105);
optional description and controls omitted as above. -/
structure TrustBoundary where
  name : String
  type : String
  security_level : Nat
  deriving DecidableEq, Repr

/-- Stable ascending insertion into a list sorted by `security_level`:
the new element goes after every element whose key is less than or equal
to its own, so elements with equal keys keep their original order. -/
def insertBySecurity (x : TrustBoundary) : List TrustBoundary → List TrustBoundary
  | [] => [x]
  | y :: ys =>
    if y.security_level ≤ x.security_level then y :: insertBySecurity x ys
    else x :: y :: ys

/-- `sorted(boundaries, key=lambda b: b.security_level)` (line 275):
Python's `sorted` is a stable ascending sort, and every stable sort
produces the same output list, so it is modelled by a stable insertion
sort. -/
def sortedBoundaries (boundaries : List TrustBoundary) : List TrustBoundary :=
  boundaries.foldl (fun acc x => insertBySecurity x acc) []

/-- Node identifiers declared by `generate_advanced_dot` (lines 277-303):
for each boundary in ascending security-level order, the slug of every
component whose boundary field equals that boundary's name. -/
def advancedDotNodes (components : List AdvComponent) (boundaries : List TrustBoundary) :
    List String :=
  (sortedBoundaries boundaries).flatMap (fun b =>
    (components.filter (fun c => c.boundary == b.name)).map (fun c => slug c.name))

/-- Python truthiness of an `Optional\x5bstr\x5d` field: `None` and the
empty string are falsy. -/
def pyTruthy : Option String → Bool
  | none => false
  | some s => !(s == "")

/-- Edges emitted by `generate_advanced_dot` (lines 306-323), in order:
for each dataflow one edge labeled with its `data_type`, solid when
`if flow.encryption:` is truthy and dashed otherwise, followed by a dotted
`Response` edge in the reverse direction when the flow is bidirectional.
The sequential `dot +=` accumulation is modelled as a left fold. -/
def advancedDotEdges (dataflows : List AdvDataFlow) : List DotEdge :=
  dataflows.foldl (fun acc f =>
    let acc1 := acc ++ [⟨slug f.source, slug f.destination, f.data_type,
      if pyTruthy f.encryption then "" else "dashed"⟩]
    if f.bidirectional then
      acc1 ++ [⟨slug f.destination, slug f.source, "Response", "dotted"⟩]
    else acc1) []

/-- One `Dataflow` declaration emitted by `generate_advanced_pytm_code`:
the loop index (`flow_{i}`), the source and destination variable names,
and whether it is the reverse declaration marked `isResponse = True`. -/
structure FlowDecl where
  idx : Nat
  srcVar : String
  dstVar : String
  isResponse : Bool
  deriving DecidableEq, Repr

/-- The guard `flow.source in comp_vars and flow.destination in comp_vars`
(threatmodel_server.py line 226): `comp_vars` maps exactly the input
components' names to their slug variables (lines 177-180), so the test is
name membership in the component list. -/
def flowResolves (components : List AdvComponent) (f : AdvDataFlow) : Bool :=
  components.any (fun c => c.name == f.source) &&
    components.any (fun c => c.name == f.destination)

/-- The dataflow declarations emitted by `generate_advanced_pytm_code`
(threatmodel_server.py lines 224-256): `for i, flow in
enumerate(dataflows)`, a declaration is produced only when the flow
resolves; a bidirectional flow additionally emits `flow_{i}_response` in
the reverse direction.  Other emitted text (protocol, port, data
references) carries no cross-references and is not modelled. -/
def advancedFlowDecls (components : List AdvComponent) (dataflows : List AdvDataFlow) :
    List FlowDecl :=
  dataflows.enum.foldl (fun acc p =>
    if flowResolves components p.2 then
      let acc1 := acc ++ [⟨p.1, slug p.2.source, slug p.2.destination, false⟩]
      if p.2.bidirectional then
        acc1 ++ [⟨p.1, slug p.2.destination, slug p.2.source, true⟩]
      else acc1
    else acc) []

/-- The pair of edges contributed by one dataflow in
`generate_advanced_dot`: the labeled main edge and, when bidirectional,
the dotted `Response` edge. -/
def advEdgesOf (f : AdvDataFlow) : List DotEdge :=
  ⟨slug f.source, slug f.destination, f.data_type,
    if pyTruthy f.encryption then "" else "dashed"⟩ ::
  (if f.bidirectional then
    [⟨slug f.destination, slug f.source, "Response", "dotted"⟩]
  else [])

theorem advancedDotEdges_aux :
    ∀ (l : List AdvDataFlow) (acc : List DotEdge),
      l.foldl (fun acc f =>
        let acc1 := acc ++ [⟨slug f.source, slug f.destination, f.data_type,
          if pyTruthy f.encryption then "" else "dashed"⟩]
        if f.bidirectional then
          acc1 ++ [⟨slug f.destination, slug f.source, "Response", "dotted"⟩]
        else acc1) acc = acc ++ l.flatMap advEdgesOf := by
  intro l
  induction l with
  | nil => simp
  | cons f fs ih =>
    intro acc
    simp only [List.foldl_cons, List.flatMap_cons]
    rw [ih]
    cases hb : f.bidirectional <;> simp [advEdgesOf, hb]

theorem advancedDotEdges_eq (dataflows : List AdvDataFlow) :
    advancedDotEdges dataflows = dataflows.flatMap advEdgesOf := by
  unfold advancedDotEdges
  rw [advancedDotEdges_aux]
  simp

theorem advEdges_length :
    ∀ l : List AdvDataFlow,
      (l.flatMap advEdgesOf).length =
        l.length + (l.filter (fun f => f.bidirectional)).length := by
  intro l
  induction l with
  | nil => simp
  | cons f fs ih =>
    cases hb : f.bidirectional <;> simp [advEdgesOf, hb, ih] <;> omega

/-- C7 (amended): in `generate_advanced_dot`, each supplied dataflow
yields exactly one edge labeled with its `data_type`, solid exactly when
the flow carries a non-empty encryption string (Python truthiness of the
optional field) and dashed otherwise, plus — exactly when the flow is
bidirectional — one dotted reciprocal edge labeled `Response`; nothing
else is emitted. -/
theorem C7_one_edge_per_flow (dataflows : List AdvDataFlow) :
    advancedDotEdges dataflows =
      dataflows.flatMap (fun f =>
        ⟨slug f.source, slug f.destination, f.data_type,
          if pyTruthy f.encryption then "" else "dashed"⟩ ::
        (if f.bidirectional then
          [⟨slug f.destination, slug f.source, "Response", "dotted"⟩]
        else [])) ∧
    (advancedDotEdges dataflows).length =
      dataflows.length + (dataflows.filter (fun f => f.bidirectional)).length := by
  refine ⟨advancedDotEdges_eq dataflows, ?_⟩
  rw [advancedDotEdges_eq]
  exact advEdges_length dataflows

/-- A dataflow whose optional encryption field holds the empty string. -/
def emptyEncFlow : AdvDataFlow :=
  { source := "A", destination := "B", protocol := "HTTPS", data_type := "payload",
    classification := .PUBLIC, encryption := some "" }

/-- C7 (counterexample): a flow whose encryption field is present but
empty (`Some ""`) has an encryption entry, yet its edge is emitted dashed,
because the source tests `if flow.encryption:` and Python's empty string
is falsy; so "solid style when the flow has an encryption annotation" is
false as stated. -/
theorem C7_counterexample_empty_encryption :
    emptyEncFlow.encryption.isSome = true ∧
    advancedDotEdges [emptyEncFlow] = [⟨"a", "b", "payload", "dashed"⟩] := by
  exact ⟨rfl, by decide⟩

/-- The block of declarations contributed by one resolving dataflow in
`generate_advanced_pytm_code`: the forward declaration `flow_{i}` and,
when bidirectional, the reverse declaration `flow_{i}_response`. -/
def declBlockOf (p : Nat × AdvDataFlow) : List FlowDecl :=
  ⟨p.1, slug p.2.source, slug p.2.destination, false⟩ ::
  (if p.2.bidirectional then
    [⟨p.1, slug p.2.destination, slug p.2.source, true⟩]
  else [])

theorem advancedFlowDecls_aux (components : List AdvComponent) :
    ∀ (l : List (Nat × AdvDataFlow)) (acc : List FlowDecl),
      l.foldl (fun acc p =>
        if flowResolves components p.2 then
          let acc1 := acc ++ [⟨p.1, slug p.2.source, slug p.2.destination, false⟩]
          if p.2.bidirectional then
            acc1 ++ [⟨p.1, slug p.2.destination, slug p.2.source, true⟩]
          else acc1
        else acc) acc =
      acc ++ (l.filter (fun p => flowResolves components p.2)).flatMap declBlockOf := by
  intro l
  induction l with
  | nil => simp
  | cons p ps ih =>
    intro acc
    simp only [List.foldl_cons]
    rw [ih]
    cases hr : flowResolves components p.2
    · simp [hr]
    · cases hb : p.2.bidirectional <;> simp [hr, hb, declBlockOf]

theorem advancedFlowDecls_eq (components : List AdvComponent)
    (dataflows : List AdvDataFlow) :
    advancedFlowDecls components dataflows =
      (dataflows.enum.filter (fun p => flowResolves components p.2)).flatMap declBlockOf := by
  unfold advancedFlowDecls
  rw [advancedFlowDecls_aux]
  simp

theorem declBlock_fwd_length :
    ∀ l : List (Nat × AdvDataFlow),
      ((l.flatMap declBlockOf).filter (fun dcl => !dcl.isResponse)).length = l.length := by
  intro l
  induction l with
  | nil => simp
  | cons p ps ih =>
    cases hb : p.2.bidirectional <;> simp [declBlockOf, hb, ih]

theorem declBlock_resp_length :
    ∀ l : List (Nat × AdvDataFlow),
      ((l.flatMap declBlockOf).filter (fun dcl => dcl.isResponse)).length =
        (l.filter (fun p => p.2.bidirectional)).length := by
  intro l
  induction l with
  | nil => simp
  | cons p ps ih =>
    cases hb : p.2.bidirectional <;> simp [declBlockOf, hb, ih]

theorem enumFrom_filter_length {α : Type} (q : α → Bool) :
    ∀ (l : List α) (n : Nat),
      ((List.enumFrom n l).filter (fun p => q p.2)).length = (l.filter q).length := by
  intro l
  induction l with
  | nil => intro n; rfl
  | cons x xs ih =>
    intro n
    cases hq : q x <;> simp [List.enumFrom_cons, hq, ih]

/-- C8: `generate_advanced_pytm_code` emits a `Dataflow` declaration for a
supplied flow iff both its endpoints name a component of the input list;
unresolved flows are skipped silently (they contribute nothing, the other
declarations keep their indices); and every emitted bidirectional flow
also emits exactly one reverse declaration marked as a response.  Stated
as: the declarations equal the blocks of the resolving flows in order, the
number of forward declarations equals the number of resolving flows, and
the number of response declarations equals the number of resolving
bidirectional flows. -/
theorem C8_flow_declaration_resolution (components : List AdvComponent)
    (dataflows : List AdvDataFlow) :
    advancedFlowDecls components dataflows =
      (dataflows.enum.filter (fun p => flowResolves components p.2)).flatMap
        (fun p => ⟨p.1, slug p.2.source, slug p.2.destination, false⟩ ::
          (if p.2.bidirectional then
            [⟨p.1, slug p.2.destination, slug p.2.source, true⟩]
          else [])) ∧
    ((advancedFlowDecls components dataflows).filter (fun dcl => !dcl.isResponse)).length =
      (dataflows.filter (fun f => flowResolves components f)).length ∧
    ((advancedFlowDecls components dataflows).filter (fun dcl => dcl.isResponse)).length =
      (dataflows.filter (fun f => flowResolves components f && f.bidirectional)).length := by
  refine ⟨advancedFlowDecls_eq components dataflows, ?_, ?_⟩
  · rw [advancedFlowDecls_eq, declBlock_fwd_length]
    exact enumFrom_filter_length _ dataflows 0
  · rw [advancedFlowDecls_eq, declBlock_resp_length, List.filter_filter]
    have h := enumFrom_filter_length
      (fun f => flowResolves components f && f.bidirectional) dataflows 0
    rw [← h]
    congr 1
    apply List.filter_congr
    intro p _
    exact Bool.and_comm _ _

theorem snd_mem_of_mem_enum {α : Type} {x : Nat × α} {l : List α}
    (h : x ∈ l.enum) : x.2 ∈ l := by
  have h2 := List.mem_map_of_mem Prod.snd h
  rw [show l.enum = List.enumFrom 0 l from rfl, List.enumFrom_map_snd] at h2
  exact h2

theorem mem_orderedBoundaries {boundaries : List String} {b : String}
    (h : b ∈ boundaries) : b ∈ orderedBoundaries boundaries := by
  unfold orderedBoundaries
  by_cases hp : b ∈ (["Internet", "DMZ", "Internal"] : List String)
  · refine List.mem_append_left _ (List.mem_filter.mpr ⟨hp, ?_⟩)
    simp [List.contains, h]
  · refine List.mem_append_right _ (List.mem_filter.mpr ⟨h, ?_⟩)
    simp [List.contains, hp]

theorem slug_mem_simpleNodes {components : List SimpleComponent} {boundaries : List String}
    {c : SimpleComponent} (hc : c ∈ components) (hb : c.boundary ∈ boundaries) :
    slug c.name ∈ simpleDotNodes components boundaries := by
  unfold simpleDotNodes
  refine List.mem_flatMap.mpr ⟨c.boundary, mem_orderedBoundaries hb, ?_⟩
  exact List.mem_map.mpr ⟨c, List.mem_filter.mpr ⟨hc, by simp⟩, rfl⟩

/-- Every endpoint of a `generate_simple_dot` edge is the slug of some
component of the input. -/
theorem simpleDotEdges_endpoints {components : List SimpleComponent} {e : DotEdge}
    (he : e ∈ simpleDotEdges components) :
    (∃ x ∈ components, e.src = slug x.name) ∧ (∃ y ∈ components, e.dst = slug y.name) := by
  unfold simpleDotEdges at he
  rcases List.mem_append.mp he with he1 | he1
  · rcases List.mem_append.mp he1 with he2 | he2
    · obtain ⟨ia, hia, he3⟩ := List.mem_flatMap.mp he2
      obtain ⟨js, hjs, he4⟩ := List.mem_flatMap.mp he3
      have ham : ia.2 ∈ components :=
        (List.mem_filter.mp (snd_mem_of_mem_enum hia)).1
      have hsm : js.2 ∈ components :=
        (List.mem_filter.mp (snd_mem_of_mem_enum hjs)).1
      unfold awEdge at he4
      by_cases h1 : (ia.1 == 0 || js.1 == 0) = true
      · rw [if_pos h1] at he4
        rcases List.mem_cons.mp he4 with he5 | he5
        · subst he5
          exact ⟨⟨ia.2, ham, rfl⟩, ⟨js.2, hsm, rfl⟩⟩
        · by_cases h2 : (ia.1 == 0 && js.1 == 0) = true
          · rw [if_pos h2] at he5
            have := List.mem_singleton.mp he5
            subst this
            exact ⟨⟨js.2, hsm, rfl⟩, ⟨ia.2, ham, rfl⟩⟩
          · rw [if_neg h2] at he5
            simp at he5
      · rw [if_neg h1] at he4
        simp at he4
    · obtain ⟨s, hs, he3⟩ := List.mem_flatMap.mp he2
      obtain ⟨st, hst, he4⟩ := List.mem_map.mp he3
      subst he4
      exact ⟨⟨s, (List.mem_filter.mp (List.mem_of_mem_take hs)).1, rfl⟩,
        ⟨st, (List.mem_filter.mp hst).1, rfl⟩⟩
  · obtain ⟨s, hs, he3⟩ := List.mem_flatMap.mp he1
    obtain ⟨ex, hex, he4⟩ := List.mem_map.mp he3
    subst he4
    exact ⟨⟨s, (List.mem_filter.mp (List.mem_of_mem_take hs)).1, rfl⟩,
      ⟨ex, (List.mem_filter.mp hex).1, rfl⟩⟩

theorem mem_insertBySecurity {x a : TrustBoundary} :
    ∀ {l : List TrustBoundary}, a ∈ insertBySecurity x l ↔ a = x ∨ a ∈ l := by
  intro l
  induction l with
  | nil => simp [insertBySecurity]
  | cons y ys ih =>
    unfold insertBySecurity
    split
    · simp only [List.mem_cons, ih]
      tauto
    · simp only [List.mem_cons]

theorem mem_sortedBoundaries {b : TrustBoundary} {boundaries : List TrustBoundary}
    (h : b ∈ boundaries) : b ∈ sortedBoundaries boundaries := by
  unfold sortedBoundaries
  suffices hgen : ∀ (l acc : List TrustBoundary), b ∈ acc ∨ b ∈ l →
      b ∈ l.foldl (fun acc x => insertBySecurity x acc) acc by
    exact hgen boundaries [] (Or.inr h)
  intro l
  induction l with
  | nil => intro acc h2; rcases h2 with h2 | h2
           · exact h2
           · simp at h2
  | cons x xs ih =>
    intro acc h2
    refine ih (insertBySecurity x acc) ?_
    rcases h2 with h2 | h2
    · exact Or.inl (mem_insertBySecurity.mpr (Or.inr h2))
    · rcases List.mem_cons.mp h2 with h3 | h3
      · exact Or.inl (mem_insertBySecurity.mpr (Or.inl h3))
      · exact Or.inr h3

theorem slug_mem_advNodes {components : List AdvComponent}
    {boundaries : List TrustBoundary} {c : AdvComponent} (hc : c ∈ components)
    (hb : boundaries.any (fun b => b.name == c.boundary) = true) :
    slug c.name ∈ advancedDotNodes components boundaries := by
  obtain ⟨b, hbmem, hbeq⟩ := List.any_eq_true.mp hb
  unfold advancedDotNodes
  refine List.mem_flatMap.mpr ⟨b, mem_sortedBoundaries hbmem, ?_⟩
  refine List.mem_map.mpr ⟨c, List.mem_filter.mpr ⟨hc, ?_⟩, rfl⟩
  have hn : b.name = c.boundary := by simpa using hbeq
  simp [hn]

/-- C3 (counterexample): with no components and no boundaries but one
dataflow `A → B`, `generate_advanced_dot` declares no node at all yet
emits the edge `a -> b`, so the output has dangling edge endpoints; the
claim's unconditional form is false. -/
theorem C3_counterexample :
    ((advancedDotEdges [flowOf .PUBLIC]).all
      (fun e => (advancedDotNodes [] []).contains e.src &&
        (advancedDotNodes [] []).contains e.dst)) = false := by
  decide

/-- C3 (amended): the no-dangling-endpoint invariant holds for inputs
whose references resolve.  For `generate_simple_dot`: if every component's
boundary occurs in the boundary list, every edge endpoint is a declared
node identifier.  For `generate_advanced_dot`: if additionally every
dataflow's source and destination name a component of the list, every edge
endpoint is likewise a declared node identifier (both via the shared slug
function). -/
theorem C3_no_dangling_when_resolved :
    (∀ (components : List SimpleComponent) (boundaries : List String),
      components.all (fun c => boundaries.contains c.boundary) = true →
      (simpleDotEdges components).all
        (fun e => (simpleDotNodes components boundaries).contains e.src &&
          (simpleDotNodes components boundaries).contains e.dst) = true) ∧
    (∀ (components : List AdvComponent) (boundaries : List TrustBoundary)
        (dataflows : List AdvDataFlow),
      components.all (fun c => boundaries.any (fun b => b.name == c.boundary)) = true →
      dataflows.all (fun f => flowResolves components f) = true →
      (advancedDotEdges dataflows).all
        (fun e => (advancedDotNodes components boundaries).contains e.src &&
          (advancedDotNodes components boundaries).contains e.dst) = true) := by
  constructor
  · intro components boundaries hb
    rw [List.all_eq_true] at hb ⊢
    intro e he
    obtain ⟨⟨x, hx, hsrc⟩, ⟨y, hy, hdst⟩⟩ := simpleDotEdges_endpoints he
    have hxb : x.boundary ∈ boundaries := by
      have := hb x hx
      simpa [List.contains] using this
    have hyb : y.boundary ∈ boundaries := by
      have := hb y hy
      simpa [List.contains] using this
    rw [Bool.and_eq_true]
    constructor
    · rw [hsrc]
      simpa [List.contains] using slug_mem_simpleNodes hx hxb
    · rw [hdst]
      simpa [List.contains] using slug_mem_simpleNodes hy hyb
  · intro components boundaries dataflows hcb hres
    rw [List.all_eq_true] at hcb hres ⊢
    intro e he
    rw [advancedDotEdges_eq] at he
    obtain ⟨f, hf, hef⟩ := List.mem_flatMap.mp he
    have hr := hres f hf
    rw [flowResolves, Bool.and_eq_true] at hr
    obtain ⟨cs, hcs, hcsn⟩ := List.any_eq_true.mp hr.1
    obtain ⟨cd, hcd, hcdn⟩ := List.any_eq_true.mp hr.2
    have hseq : slug f.source = slug cs.name := by
      have : cs.name = f.source := by simpa using hcsn
      rw [this]
    have hdeq : slug f.destination = slug cd.name := by
      have : cd.name = f.destination := by simpa using hcdn
      rw [this]
    have hsrcn : slug f.source ∈ advancedDotNodes components boundaries := by
      rw [hseq]
      exact slug_mem_advNodes hcs (hcb cs hcs)
    have hdstn : slug f.destination ∈ advancedDotNodes components boundaries := by
      rw [hdeq]
      exact slug_mem_advNodes hcd (hcb cd hcd)
    unfold advEdgesOf at hef
    rcases List.mem_cons.mp hef with he1 | he1
    · subst he1
      simp only [Bool.and_eq_true]
      constructor
      · simpa [List.contains] using hsrcn
      · simpa [List.contains] using hdstn
    · by_cases hbd : f.bidirectional = true
      · rw [if_pos hbd] at he1
        have := List.mem_singleton.mp he1
        subst this
        simp only [Bool.and_eq_true]
        constructor
        · simpa [List.contains] using hdstn
        · simpa [List.contains] using hsrcn
      · rw [if_neg hbd] at he1
        simp at he1

/-- Concrete resolved inputs used to witness the amended C3 theorem. -/
def demoSimpleComps : List SimpleComponent :=
  [⟨"User", "actor", "Internet"⟩, ⟨"API Server", "server", "DMZ"⟩,
   ⟨"Database", "datastore", "Internal"⟩]

/-- Concrete advanced components for the C3 witness. -/
def demoAdvComps : List AdvComponent :=
  [⟨"Web App", .SERVER, "DMZ"⟩, ⟨"Users DB", .DATABASE, "Internal"⟩]

/-- Concrete trust boundaries for the C3 witness. -/
def demoAdvBounds : List TrustBoundary :=
  [⟨"DMZ", "DMZ", 5⟩, ⟨"Internal", "Internal", 8⟩]

/-- A resolved dataflow between the two demo advanced components. -/
def demoAdvFlow : AdvDataFlow :=
  { source := "Web App", destination := "Users DB", protocol := "SQL",
    data_type := "user records", classification := .CONFIDENTIAL,
    bidirectional := true, encryption := some "TLS" }

theorem C3_no_dangling_witness :
    (demoSimpleComps.all (fun c => ["Internet", "DMZ", "Internal"].contains c.boundary)
        = true) ∧
    ((simpleDotEdges demoSimpleComps).all
      (fun e => (simpleDotNodes demoSimpleComps ["Internet", "DMZ", "Internal"]).contains e.src &&
        (simpleDotNodes demoSimpleComps ["Internet", "DMZ", "Internal"]).contains e.dst) = true) ∧
    (demoAdvComps.all (fun c => demoAdvBounds.any (fun b => b.name == c.boundary)) = true) ∧
    ([demoAdvFlow].all (fun f => flowResolves demoAdvComps f) = true) ∧
    ((advancedDotEdges [demoAdvFlow]).all
      (fun e => (advancedDotNodes demoAdvComps demoAdvBounds).contains e.src &&
        (advancedDotNodes demoAdvComps demoAdvBounds).contains e.dst) = true) :=
  ⟨by decide,
   C3_no_dangling_when_resolved.1 demoSimpleComps ["Internet", "DMZ", "Internal"] (by decide),
   by decide, by decide,
   C3_no_dangling_when_resolved.2 demoAdvComps demoAdvBounds [demoAdvFlow]
     (by decide) (by decide)⟩

theorem awEdge_zero_zero (a s : SimpleComponent) :
    awEdge (0, a) (0, s) =
      [⟨slug a.name, slug s.name, "HTTPS", ""⟩,
       ⟨slug s.name, slug a.name, "Response", "dashed"⟩] := by
  simp [awEdge]

theorem awEdge_zero_pos (a s : SimpleComponent) {j : Nat} (hj : j ≠ 0) :
    awEdge (0, a) (j, s) = [⟨slug a.name, slug s.name, "HTTPS", ""⟩] := by
  simp [awEdge, hj]

theorem awEdge_pos_zero (a s : SimpleComponent) {i : Nat} (hi : i ≠ 0) :
    awEdge (i, a) (0, s) = [⟨slug a.name, slug s.name, "HTTPS", ""⟩] := by
  simp [awEdge, hi]

theorem awEdge_pos_pos (a s : SimpleComponent) {i j : Nat} (hi : i ≠ 0) (hj : j ≠ 0) :
    awEdge (i, a) (j, s) = [] := by
  simp [awEdge, hi, hj]

theorem inner_row_zero_tail (a0 : SimpleComponent) :
    ∀ (ss : List SimpleComponent) (n : Nat), n ≠ 0 →
      (List.enumFrom n ss).flatMap (fun js => awEdge (0, a0) js) =
        ss.map (fun s => ⟨slug a0.name, slug s.name, "HTTPS", ""⟩) := by
  intro ss
  induction ss with
  | nil => intro n _; rfl
  | cons s t ih =>
    intro n hn
    rw [List.enumFrom_cons, List.flatMap_cons, awEdge_zero_pos a0 s hn,
      ih (n + 1) (Nat.succ_ne_zero n)]
    rfl

theorem inner_row_zero (a0 s0 : SimpleComponent) (ss : List SimpleComponent) :
    (s0 :: ss).enum.flatMap (fun js => awEdge (0, a0) js) =
      ⟨slug a0.name, slug s0.name, "HTTPS", ""⟩ ::
      ⟨slug s0.name, slug a0.name, "Response", "dashed"⟩ ::
      ss.map (fun s => ⟨slug a0.name, slug s.name, "HTTPS", ""⟩) := by
  rw [show (s0 :: ss).enum = (0, s0) :: List.enumFrom 1 ss from rfl, List.flatMap_cons,
    awEdge_zero_zero, inner_row_zero_tail a0 ss 1 (Nat.succ_ne_zero 0)]
  rfl

theorem inner_row_pos_tail (a : SimpleComponent) {i : Nat} (hi : i ≠ 0) :
    ∀ (ss : List SimpleComponent) (n : Nat), n ≠ 0 →
      (List.enumFrom n ss).flatMap (fun js => awEdge (i, a) js) = [] := by
  intro ss
  induction ss with
  | nil => intro n _; rfl
  | cons s t ih =>
    intro n hn
    rw [List.enumFrom_cons, List.flatMap_cons, awEdge_pos_pos a s hi hn,
      ih (n + 1) (Nat.succ_ne_zero n)]
    rfl

theorem inner_row_pos (a s0 : SimpleComponent) (ss : List SimpleComponent)
    {i : Nat} (hi : i ≠ 0) :
    (s0 :: ss).enum.flatMap (fun js => awEdge (i, a) js) =
      [⟨slug a.name, slug s0.name, "HTTPS", ""⟩] := by
  rw [show (s0 :: ss).enum = (0, s0) :: List.enumFrom 1 ss from rfl, List.flatMap_cons,
    awEdge_pos_zero a s0 hi, inner_row_pos_tail a hi ss 1 (Nat.succ_ne_zero 0)]
  rfl

theorem rows_pos (s0 : SimpleComponent) (ss : List SimpleComponent) :
    ∀ (acts : List SimpleComponent) (m : Nat), m ≠ 0 →
      (List.enumFrom m acts).flatMap (fun ia =>
          (s0 :: ss).enum.flatMap (fun js => awEdge ia js)) =
        acts.map (fun a => ⟨slug a.name, slug s0.name, "HTTPS", ""⟩) := by
  intro acts
  induction acts with
  | nil => intro m _; rfl
  | cons a t ih =>
    intro m hm
    rw [List.enumFrom_cons, List.flatMap_cons, inner_row_pos a s0 ss hm,
      ih (m + 1) (Nat.succ_ne_zero m)]
    rfl

/-- C6: the closed form of the edges of `generate_simple_dot` when at
least one actor and one server exist (in emission order `a0 :: rest`,
`s0 :: rest`): the `HTTPS` edge `a0 → s0` and the unique dashed `Response`
edge `s0 → a0`, then `HTTPS` edges from the first actor to every further
server and from every further actor to the first server — i.e. the edge
`actor\x5bi\x5d → server\x5bj\x5d` is emitted exactly when `i = 0` or
`j = 0` — then exactly one `Query` edge from the first server to each
datastore and one `API` edge from the first server to each external
component, and nothing else. -/
theorem C6_simple_edge_structure (components : List SimpleComponent)
    (a0 : SimpleComponent) (acts : List SimpleComponent)
    (s0 : SimpleComponent) (srvs : List SimpleComponent)
    (ha : actorsOf components = a0 :: acts)
    (hs : serversOf components = s0 :: srvs) :
    simpleDotEdges components =
      ⟨slug a0.name, slug s0.name, "HTTPS", ""⟩ ::
      ⟨slug s0.name, slug a0.name, "Response", "dashed"⟩ ::
      (srvs.map (fun s => ⟨slug a0.name, slug s.name, "HTTPS", ""⟩) ++
       acts.map (fun a => ⟨slug a.name, slug s0.name, "HTTPS", ""⟩) ++
       (storesOf components).map (fun st => ⟨slug s0.name, slug st.name, "Query", ""⟩) ++
       (externalsOf components).map (fun e => ⟨slug s0.name, slug e.name, "API", ""⟩)) := by
  unfold simpleDotEdges
  rw [ha, hs]
  rw [show (a0 :: acts).enum = (0, a0) :: List.enumFrom 1 acts from rfl, List.flatMap_cons,
    inner_row_zero a0 s0 srvs, rows_pos s0 srvs acts 1 (Nat.succ_ne_zero 0)]
  simp [List.append_assoc]

/-- Components exercising every category, used to witness C6. -/
def demoC6Comps : List SimpleComponent :=
  [⟨"User", "actor", "Internet"⟩, ⟨"Admin", "actor", "Internet"⟩,
   ⟨"Web Frontend", "server", "Internet"⟩, ⟨"API Server", "server", "DMZ"⟩,
   ⟨"Database", "datastore", "Internal"⟩, ⟨"Payment Gateway", "external", "Internet"⟩]

theorem C6_simple_edge_structure_witness :
    actorsOf demoC6Comps =
      ⟨"User", "actor", "Internet"⟩ :: [⟨"Admin", "actor", "Internet"⟩] ∧
    serversOf demoC6Comps =
      ⟨"Web Frontend", "server", "Internet"⟩ :: [⟨"API Server", "server", "DMZ"⟩] ∧
    simpleDotEdges demoC6Comps =
      ⟨slug (SimpleComponent.name ⟨"User", "actor", "Internet"⟩),
        slug (SimpleComponent.name ⟨"Web Frontend", "server", "Internet"⟩), "HTTPS", ""⟩ ::
      ⟨slug (SimpleComponent.name ⟨"Web Frontend", "server", "Internet"⟩),
        slug (SimpleComponent.name ⟨"User", "actor", "Internet"⟩), "Response", "dashed"⟩ ::
      (([⟨"API Server", "server", "DMZ"⟩] : List SimpleComponent).map
          (fun s => ⟨slug (SimpleComponent.name ⟨"User", "actor", "Internet"⟩),
            slug s.name, "HTTPS", ""⟩) ++
       ([⟨"Admin", "actor", "Internet"⟩] : List SimpleComponent).map
          (fun a => ⟨slug a.name,
            slug (SimpleComponent.name ⟨"Web Frontend", "server", "Internet"⟩), "HTTPS", ""⟩) ++
       (storesOf demoC6Comps).map
          (fun st => ⟨slug (SimpleComponent.name ⟨"Web Frontend", "server", "Internet"⟩),
            slug st.name, "Query", ""⟩) ++
       (externalsOf demoC6Comps).map
          (fun e => ⟨slug (SimpleComponent.name ⟨"Web Frontend", "server", "Internet"⟩),
            slug e.name, "API", ""⟩)) :=
  ⟨by decide, by decide,
   C6_simple_edge_structure demoC6Comps ⟨"User", "actor", "Internet"⟩
     [⟨"Admin", "actor", "Internet"⟩] ⟨"Web Frontend", "server", "Internet"⟩
     [⟨"API Server", "server", "DMZ"⟩] (by decide) (by decide)⟩

/-- Modelled from the spec: the cache operation `getOrCreate(key,
producer)` is not implemented in src/ — threatmodel_server.py lines 24-27
only declare the bare dictionaries `_code_cache`, `_diagram_cache` and
`_threat_cache`, and no code in the repository reads or writes them — so
the operation is modelled from spec sections 4.5 and 5: a compute-if-absent
step on a key-value store with no TTL and no eviction.  Under the exclusive
lock the spec requires, any set of concurrent calls executes as a
sequential interleaving of atomic steps, modelled as a request list.
`cacheRun` returns the final store, the responses in request order, and
the keys for which the producer was actually invoked. -/
def cacheRun : List (String × (Unit → String)) → List (String × String) →
    List (String × String) × List String × List String
  | [], st => (st, [], [])
  | (k, p) :: rest, st =>
    match st.find? (fun e => e.1 == k) with
    | some e =>
      let r := cacheRun rest st
      (r.1, e.2 :: r.2.1, r.2.2)
    | none =>
      let v := p ()
      let r := cacheRun rest (st ++ [(k, v)])
      (r.1, v :: r.2.1, k :: r.2.2)

theorem cacheRun_no_call_of_mem :
    ∀ (reqs : List (String × (Unit → String))) (st : List (String × String))
      (k : String), st.any (fun e => e.1 == k) = true →
      k ∉ (cacheRun reqs st).2.2 := by
  intro reqs
  induction reqs with
  | nil => intro st k _ h; simp [cacheRun] at h
  | cons q rest ih =>
    intro st k hmem
    obtain ⟨k0, p⟩ := q
    cases hfind : st.find? (fun e => e.1 == k0) with
    | some e =>
      simp only [cacheRun, hfind]
      exact ih st k hmem
    | none =>
      have hk : k ≠ k0 := by
        intro heq
        subst heq
        obtain ⟨e, he, hek⟩ := List.any_eq_true.mp hmem
        have := List.find?_eq_none.mp hfind e he
        exact this hek
      simp only [cacheRun, hfind]
      intro hin
      rcases List.mem_cons.mp hin with h1 | h1
      · exact hk h1
      · have hmem2 : (st ++ [(k0, p ())]).any (fun e => e.1 == k) = true := by
          rw [List.any_append, Bool.or_eq_true]
          exact Or.inl hmem
        exact ih (st ++ [(k0, p ())]) k hmem2 h1

theorem cacheRun_mem_persists :
    ∀ (reqs : List (String × (Unit → String))) (st : List (String × String))
      (k : String), st.any (fun e => e.1 == k) = true →
      (cacheRun reqs st).1.any (fun e => e.1 == k) = true := by
  intro reqs
  induction reqs with
  | nil => intro st k h; simpa [cacheRun] using h
  | cons q rest ih =>
    intro st k hmem
    obtain ⟨k0, p⟩ := q
    cases hfind : st.find? (fun e => e.1 == k0) with
    | some e =>
      simp only [cacheRun, hfind]
      exact ih st k hmem
    | none =>
      simp only [cacheRun, hfind]
      refine ih (st ++ [(k0, p ())]) k ?_
      rw [List.any_append, Bool.or_eq_true]
      exact Or.inl hmem

theorem cacheRun_count_le_one :
    ∀ (reqs : List (String × (Unit → String))) (st : List (String × String))
      (k : String), (cacheRun reqs st).2.2.count k ≤ 1 := by
  intro reqs
  induction reqs with
  | nil => intro st k; simp [cacheRun]
  | cons q rest ih =>
    intro st k
    obtain ⟨k0, p⟩ := q
    cases hfind : st.find? (fun e => e.1 == k0) with
    | some e =>
      simp only [cacheRun, hfind]
      exact ih st k
    | none =>
      simp only [cacheRun, hfind]
      by_cases hk : k0 = k
      · subst hk
        have hmem : (st ++ [(k0, p ())]).any (fun e => e.1 == k0) = true := by
          rw [List.any_append, Bool.or_eq_true]
          exact Or.inr (by simp)
        have hno := cacheRun_no_call_of_mem rest (st ++ [(k0, p ())]) k0 hmem
        rw [List.count_cons_self, List.count_eq_zero.mpr hno]
      · rw [List.count_cons_of_ne (fun h => hk h.symm)]
        exact ih (st ++ [(k0, p ())]) k

/-- C9 (spec-modelled): for the cache's `getOrCreate`, the producer runs
at most once per key over any request sequence from any starting store;
for a key already present in the store the producer is never invoked
again, the entry is never evicted, and a request for a populated key
returns the memoized value. -/
theorem C9_cache_at_most_once (reqs : List (String × (Unit → String)))
    (st : List (String × String)) (k : String) :
    (cacheRun reqs st).2.2.count k ≤ 1 ∧
    (st.any (fun e => e.1 == k) = true → k ∉ (cacheRun reqs st).2.2) ∧
    (st.any (fun e => e.1 == k) = true →
      (cacheRun reqs st).1.any (fun e => e.1 == k) = true) ∧
    (∀ (p : Unit → String) (rest : List (String × (Unit → String)))
        (e : String × String),
      reqs = (k, p) :: rest → st.find? (fun e2 => e2.1 == k) = some e →
      (cacheRun reqs st).2.1.head? = some e.2 ∧ k ∉ (cacheRun reqs st).2.2) := by
  refine ⟨cacheRun_count_le_one reqs st k, cacheRun_no_call_of_mem reqs st k,
    cacheRun_mem_persists reqs st k, ?_⟩
  intro p rest e hreq hfind
  subst hreq
  have hpe := List.find?_some hfind
  have hmem : st.any (fun e2 => e2.1 == k) = true :=
    List.any_eq_true.mpr ⟨e, List.mem_of_find?_eq_some hfind, hpe⟩
  constructor
  · simp only [cacheRun, hfind]
    rfl
  · simp only [cacheRun, hfind]
    exact cacheRun_no_call_of_mem rest st k hmem

/-- Requests used to witness the cache theorem: two calls for the same
key against a store where the key is already populated. -/
def demoReqs : List (String × (Unit → String)) :=
  [("k", fun _ => "fresh"), ("k", fun _ => "again")]

theorem C9_cache_at_most_once_witness :
    (([("k", "cached")] : List (String × String)).any (fun e => e.1 == "k") = true) ∧
    (cacheRun demoReqs [("k", "cached")]).2.2.count "k" ≤ 1 ∧
    "k" ∉ (cacheRun demoReqs [("k", "cached")]).2.2 ∧
    (cacheRun demoReqs [("k", "cached")]).1.any (fun e => e.1 == "k") = true ∧
    (cacheRun demoReqs [("k", "cached")]).2.1.head? = some "cached" :=
  ⟨by decide,
   (C9_cache_at_most_once demoReqs [("k", "cached")] "k").1,
   (C9_cache_at_most_once demoReqs [("k", "cached")] "k").2.1 (by decide),
   (C9_cache_at_most_once demoReqs [("k", "cached")] "k").2.2.1 (by decide),
   ((C9_cache_at_most_once demoReqs [("k", "cached")] "k").2.2.2
     (fun _ => "fresh") [("k", fun _ => "again")] ("k", "cached") rfl (by decide)).1⟩

end PytmMcp
